import Mathlib

/-!
Verification of the FERRET duplicate/similarity pipeline core.

This file gives a shallow embedding of the Rust sources:

* `src/file_discovery.rs` — filename normalization and fuzzy grouping
  (`SmartGrouper::normalize_filename`, `SmartGrouper::group_files`);
* `src/analysis/duplicates.rs` — exact-duplicate detection and accounting
  (`SmartDuplicateDetector::find_exact_duplicates_in_group`,
  `SmartDuplicateDetector::detect_duplicates`,
  `DuplicateResults::add_duplicate_group`);
* `src/file_scanner/similarity.rs` — shingling, Jaccard pre-filter,
  Smith-Waterman alignment and the similarity store
  (`FileSimilarity::shingle_file`, `shingle_similarity`,
  `calculate_similarity`, `smith_waterman_rolling`, `load_files`,
  `get_similar_files`).

Modelling conventions:

* `PathBuf` and `String` are both modelled as `String`; a filesystem is an
  oracle function from paths to optional contents / metadata.
* Rust `f64` scores are modelled as exact rationals `ℚ`; the comparisons the
  code performs stay in the exact range where `f64` and `ℚ` agree on the
  claims under study.
* Rust `HashMap` iteration order is not deterministic across runs (the seed
  of the hasher is randomized per map).  Wherever the code iterates a map,
  the embedding takes an explicit iteration-order oracle, and wherever the
  code only inserts by key, the map is modelled as an insertion-ordered
  association list.
* The external crate `fuzzy_matcher` (SkimMatcherV2) is not part of the
  repository; grouping is therefore parametrized by an abstract matcher, and
  a concrete model of the matcher (from the spec's description) is supplied
  for concrete runs.
-/

/-! ## Byte length of a string (Rust `str::len`) -/

/-- Number of UTF-8 bytes of a string; models Rust `str::len()`. -/
def utf8Len (s : String) : Nat :=
  (s.data.map Char.utf8Size).sum

/-! ## Filename stem and normalization (`SmartGrouper::normalize_filename`) -/

/-- Index just after the last occurrence of `c` in `l`, if any. -/
def lastIdxOf (c : Char) : List Char → Option Nat
  | [] => none
  | a :: as =>
    match lastIdxOf c as with
    | some i => some (i + 1)
    | none => if a = c then some 0 else none

/-- Final path component: everything after the last `/`.  Models
`Path::file_name` for paths that do not end in `..` or `/`. -/
def fileName (s : String) : String :=
  match lastIdxOf '/' s.data with
  | some i => ⟨s.data.drop (i + 1)⟩
  | none => s

/-- Stem of a file name: the portion before the last `.`; the whole name if
there is no `.` or if the only `.` is the leading character.  Models
`Path::file_stem` composed with `file_name`. -/
def fileStem (s : String) : String :=
  let name := fileName s
  match lastIdxOf '.' name.data with
  | none => name
  | some 0 => name
  | some i => ⟨name.data.take i⟩

/-- Characters matched by the regex class `\s` (ASCII range). -/
def wsChar (c : Char) : Bool :=
  c = ' ' ∨ c = '\t' ∨ c = '\n' ∨ c = '\r' ∨ c = '\x0b' ∨ c = '\x0c'

/-- Marker alternation of the cleanup regex: `v\d+|copy|backup|final|draft|\d+`. -/
def isMarker (t : List Char) : Bool :=
  t == "copy".data || t == "backup".data || t == "final".data || t == "draft".data ||
    (match t with
     | 'v' :: ds => !ds.isEmpty && ds.all Char.isDigit
     | _ => false) ||
    (!t.isEmpty && t.all Char.isDigit)

/-- Does the whole suffix `t` match `\s*(v\d+|copy|backup|final|draft|\d+)`?
(The regex is anchored at `$`, so a match starting at an offset consumes the
entire rest of the string.) -/
def suffixMatch (t : List Char) : Bool :=
  (List.range (t.length + 1)).any fun k =>
    (t.take k).all wsChar && isMarker (t.drop k)

/-- Offset of the leftmost position whose suffix matches the cleanup regex;
models the leftmost-match rule of `Regex::replace` for a `$`-anchored
pattern. -/
def rsFind : List Char → Option Nat
  | [] => if suffixMatch [] then some 0 else none
  | c :: rest =>
    if suffixMatch (c :: rest) then some 0
    else (rsFind rest).map (· + 1)

/-- Replace the first (leftmost) match of the cleanup regex by the empty
string; since the pattern is `$`-anchored the match extends to the end, so
the result is the prefix before the match. -/
def regexReplaceFirst (l : List Char) : List Char :=
  match rsFind l with
  | none => l
  | some p => l.take p

/-- Remove leading and trailing whitespace; models Rust `str::trim`. -/
def trimWs (l : List Char) : List Char :=
  ((l.dropWhile wsChar).reverse.dropWhile wsChar).reverse

/-- Lowercase and replace `_` and `-` by spaces; the two `str::replace`
calls of `normalize_filename` after `to_lowercase`. -/
def lowerSeps (l : List Char) : List Char :=
  l.map fun c =>
    let c' := c.toLower
    if c' = '_' ∨ c' = '-' then ' ' else c'

/-- Translation of `SmartGrouper::normalize_filename` (file_discovery.rs
lines 118-146): take the stem, lowercase it, replace separators by spaces,
strip the first `\s*(v\d+|copy|backup|final|draft|\d+)$` regex match, trim;
if the result is empty fall back to the lowercased stem. -/
def normalize_filename (path : String) : String :=
  let stem := fileStem path
  let normalized := lowerSeps stem.data
  let cleaned := trimWs (regexReplaceFirst normalized)
  if cleaned = [] then ⟨stem.data.map Char.toLower⟩ else ⟨cleaned⟩

/-! ## Fuzzy matcher model and grouping (`SmartGrouper::group_files`) -/

/-- Subsequence test on character lists. -/
def isSubseqOf : List Char → List Char → Bool
  | [], _ => true
  | _ :: _, [] => false
  | a :: as, b :: bs => if a = b then isSubseqOf as bs else isSubseqOf (a :: as) bs

/-- Modelled from the spec: the grouping matcher is the external crate
`fuzzy_matcher` (SkimMatcherV2), absent from this repository.  The spec
describes it as a "subsequence-style fuzzy match, not edit distance" scored
"on a 0-100-ish fuzzy scale" against a threshold of 60.  The model scores a
pattern that occurs as a subsequence of the choice by the fraction of the
choice it covers, and fails otherwise. -/
def skimModel (choice pattern : String) : Option Int :=
  if isSubseqOf pattern.data choice.data then
    some ((100 * pattern.length / choice.length : Nat) : Int)
  else none

/-- Threshold test performed by `group_files`: the matcher returned a score
and it is at least the grouping threshold 60. -/
def matchesKey (m : String → String → Option Int) (n k : String) : Bool :=
  match m n k with
  | some score => 60 ≤ score
  | none => false

/-- State of the grouping `HashMap<String, FileGroup>`: an insertion-ordered
association list from canonical name to the group's variant paths. -/
abbrev GroupState := List (String × List String)

/-- One iteration of the `for file in files` loop of
`SmartGrouper::group_files` (file_discovery.rs lines 78-104).  `ord` is the
iteration-order oracle for the `HashMap`: the scan over existing groups
visits entries in the order `ord st`.  The first scanned group whose
canonical name fuzzy-matches the normalized name above threshold receives
the file; otherwise `HashMap::insert` keyed by the normalized name either
replaces an existing entry or appends a fresh group. -/
def groupStep (m : String → String → Option Int) (ord : GroupState → GroupState)
    (st : GroupState) (file : String) : GroupState :=
  let n := normalize_filename file
  match (ord st).find? (fun e => matchesKey m n e.1) with
  | some e => st.map fun e2 => if e2.1 = e.1 then (e2.1, e2.2 ++ [file]) else e2
  | none =>
    if st.any (fun e2 => e2.1 = n) then
      st.map fun e2 => if e2.1 = n then (n, [file]) else e2
    else st ++ [(n, [file])]

/-- Translation of `SmartGrouper::group_files` (file_discovery.rs lines
74-108), parametrized by the fuzzy matcher `m` and the `HashMap` iteration
order `ord`.  The result is the final map contents as an insertion-ordered
association list (the Rust `into_values` order is again map iteration
order; the set of groups is unaffected). -/
def group_files (m : String → String → Option Int) (ord : GroupState → GroupState)
    (files : List String) : GroupState :=
  files.foldl (groupStep m ord) []

/-! ## Exact-duplicate detection (`analysis/duplicates.rs`) -/

/-- Data of `FileGroup` (file_discovery.rs lines 264-269). -/
structure FileGroup where
  canonical_name : String
  variants : List String
  deriving DecidableEq, Repr

/-- Translation of `FileGroup::is_potential_duplicate`: more than one file. -/
def FileGroup.is_potential_duplicate (g : FileGroup) : Bool :=
  g.variants.length > 1

/-- Data of `DuplicateGroup` (duplicates.rs lines 170-176). -/
structure DuplicateGroup where
  base_name : String
  duplicate_sets : List (List String)
  deriving DecidableEq, Repr

/-- Data of `DuplicateResults` (duplicates.rs lines 122-130).  Sizes are in
bytes (`u64` in the source, modelled as `Nat`: the sums involved stay far
below 2^64 for the inputs under study, and the source's counters are
additive). -/
structure DuplicateResults where
  total_duplicates : Nat
  space_wasted : Nat
  duplicate_groups : List DuplicateGroup
  deriving DecidableEq, Repr

/-- Translation of `DuplicateResults::new`. -/
def DuplicateResults.new : DuplicateResults :=
  { total_duplicates := 0, space_wasted := 0, duplicate_groups := [] }

/-- Translation of `DuplicateResults::add_duplicate_group` (duplicates.rs
lines 147-165).  `meta` is the filesystem metadata oracle: `meta f` is the
on-disk size of `f`, or `none` when `std::fs::metadata` fails (in which case
the source skips the file's size).  Each set of size at least 2 contributes
its size minus one to `total_duplicates` and the sizes of all members after
the first to `space_wasted`; the group is then appended. -/
def add_duplicate_group (meta : String → Option Nat) (r : DuplicateResults)
    (g : DuplicateGroup) : DuplicateResults :=
  let r' := g.duplicate_sets.foldl
    (fun acc s =>
      if s.length > 1 then
        { acc with
          total_duplicates := acc.total_duplicates + (s.length - 1),
          space_wasted := acc.space_wasted +
            ((s.drop 1).map (fun f => (meta f).getD 0)).sum }
      else acc) r
  { r' with duplicate_groups := r'.duplicate_groups ++ [g] }

/-- Append `v` to the entry of key `h`, inserting the key at the end if it is
absent; models `HashMap::entry(h).or_insert_with(Vec::new).push(v)` with the
map as an insertion-ordered association list. -/
def assocAppend (m : List (String × List String)) (h : String) (v : String) :
    List (String × List String) :=
  if m.any (fun e => e.1 = h) then
    m.map fun e => if e.1 = h then (e.1, e.2 ++ [v]) else e
  else m ++ [(h, [v])]

/-- Translation of `SmartDuplicateDetector::find_exact_duplicates_in_group`
(duplicates.rs lines 58-90).  `fs f` is the SHA-256 digest of `f`'s content,
or `none` when the file is missing or fails to read or hash (the source
logs a warning and continues in either case).  Since the spec treats the
cryptographic hash as collision-free, the digest is modelled by the file
content itself.  Files are bucketed by digest and only buckets with at
least two members are returned. -/
def find_exact_duplicates_in_group (fs : String → Option String) (g : FileGroup) :
    List (List String) :=
  let hashMap := g.variants.foldl
    (fun m p =>
      match fs p with
      | none => m
      | some h => assocAppend m h p) []
  (hashMap.map Prod.snd).filter fun l => l.length > 1

/-- Translation of `SmartDuplicateDetector::detect_duplicates` (duplicates.rs
lines 27-48): groups with at least two members are scanned for exact
duplicates, and nonempty duplicate-set lists are folded into the results via
`add_duplicate_group`. -/
def detect_duplicates (fs : String → Option String) (meta : String → Option Nat)
    (file_groups : List FileGroup) : DuplicateResults :=
  file_groups.foldl
    (fun results g =>
      if g.is_potential_duplicate then
        let duplicate_sets := find_exact_duplicates_in_group fs g
        if duplicate_sets.isEmpty then results
        else add_duplicate_group meta results
          { base_name := g.canonical_name, duplicate_sets := duplicate_sets }
      else results) DuplicateResults.new

/-! ## Similarity engine (`file_scanner/similarity.rs`) -/

/-- Translation of `FileSimilarity::determine_shingle_size` (similarity.rs
lines 50-53): `(content_length / 50).clamp(2, 10)`. -/
def determine_shingle_size (content_length : Nat) : Nat :=
  min (max (content_length / 50) 2) 10

/-- Tokenizer loop behind `splitWs`: `cur` is the current token, reversed. -/
def splitWsAux : List Char → List Char → List String
  | [], cur => if cur.isEmpty then [] else [⟨cur.reverse⟩]
  | c :: cs, cur =>
    if wsChar c then
      if cur.isEmpty then splitWsAux cs [] else (⟨cur.reverse⟩ : String) :: splitWsAux cs []
    else splitWsAux cs (c :: cur)

/-- Whitespace tokenization; models Rust `str::split_whitespace` (split on
whitespace runs, no empty tokens). -/
def splitWs (content : String) : List String :=
  splitWsAux content.data []

/-- Shingle starting at word index `i`: `words[i..i + k].join(" ")`. -/
def shingleAt (words : List String) (k i : Nat) : String :=
  String.intercalate " " ((words.drop i).take k)

/-- Translation of `FileSimilarity::shingle_file` (similarity.rs lines
56-69): dynamic shingle size from the byte length, early return for short
token lists, then one shingle inserted per index in
`0..words.len().saturating_sub(shingle_size)`. -/
def shingle_file (content : String) : Finset String :=
  let shingle_size := determine_shingle_size (utf8Len content)
  let words := splitWs content
  if words.length < shingle_size then ∅
  else (List.range (words.length - shingle_size)).foldl
    (fun shingles i => insert (shingleAt words shingle_size i) shingles) ∅

/-- Translation of `FileSimilarity::shingle_similarity` (similarity.rs lines
72-80): 0 when either set is empty, otherwise Jaccard similarity
(intersection size over union size, as an exact rational). -/
def shingle_similarity (shingles1 shingles2 : Finset String) : ℚ :=
  if shingles1 = ∅ ∨ shingles2 = ∅ then 0
  else ((shingles1 ∩ shingles2).card : ℚ) / ((shingles1 ∪ shingles2).card : ℚ)

/-! ### Smith-Waterman with a rolling matrix -/

/-- Value of one dynamic-programming cell, clamped at zero: the inner
`std::cmp::max` cascade of `smith_waterman_rolling` with `MATCH_SCORE = 3`,
`MISMATCH_SCORE = -1`, `GAP_PENALTY = -2` folded into `m`. -/
def swCell (diag up left m : Int) : Int :=
  max 0 (max (diag + m) (max (up - 2) (left - 2)))

/-- Match/mismatch score of cell `(i+1, j+1)`:
`if seq1.chars().nth(i) == seq2.chars().nth(j) { 3 } else { -1 }`.  The
source indexes rows by byte position but fetches by char position, comparing
`Option<char>` values; `none = none` counts as a match, as in the source. -/
def mmScore (s1 s2 : String) (i j : Nat) : Int :=
  if s1.data.get? i = s2.data.get? j then 3 else -1

/-- Full dynamic-programming matrix of the Smith-Waterman loop: `swH s1 s2 i
j` is the value `current_row[j]` computed in row `i` (rows and columns `0`
are the all-zero borders). -/
def swH (s1 s2 : String) : Nat → Nat → Int
  | 0, _ => 0
  | _ + 1, 0 => 0
  | i + 1, j + 1 =>
    swCell (swH s1 s2 i j) (swH s1 s2 i (j + 1)) (swH s1 s2 (i + 1) j) (mmScore s1 s2 i j)
  termination_by i j => i + j

/-- Cells of the next row, left to right: for each remaining column the cell
is computed from the previous row's diagonal and upper values and the cell
just written (`left`), exactly as the inner `for j in 1..cols` loop. -/
def nextRowCells (a : Option Char) : List (Option Char) → List Int → Int → List Int
  | b :: bs, p0 :: p1 :: ps, left =>
    let c := swCell p0 p1 left (if a = b then 3 else -1)
    c :: nextRowCells a bs (p1 :: ps) c
  | _, _, _ => []

/-- Outer `for i in 1..rows` loop of `smith_waterman_rolling`: process one
row per remaining character slot of `seq1`, thread the freshly computed row
as the next `prev_row` (the `std::mem::swap`), and fold every computed cell
into the running maximum. -/
def swRollAux (bs : List (Option Char)) : List (Option Char) → List Int → Int → Int
  | [], _, acc => acc
  | a :: as, pre, acc =>
    let cells := nextRowCells a bs pre 0
    swRollAux bs as (0 :: cells) (cells.foldl max acc)

/-- Maximum cell value computed by `smith_waterman_rolling` (similarity.rs
lines 115-145): rows indexed by `seq1`'s byte positions, columns by
`seq2`'s byte positions, initial previous row all zeros, running maximum
starting at 0. -/
def swRollingMax (s1 s2 : String) : Int :=
  swRollAux ((List.range (utf8Len s2)).map fun j => s2.data.get? j)
    ((List.range (utf8Len s1)).map fun i => s1.data.get? i)
    (List.replicate (utf8Len s2 + 1) 0) 0

/-- Translation of `FileSimilarity::smith_waterman_rolling` (similarity.rs
lines 115-148): the maximum cell value normalized by
`max(len1, len2) * MATCH_SCORE`, as an exact rational. -/
def smith_waterman_rolling (s1 s2 : String) : ℚ :=
  (swRollingMax s1 s2 : ℚ) / ((max (utf8Len s1) (utf8Len s2) : ℚ) * 3)

/-! ### Pair scoring (`FileSimilarity::calculate_similarity`) -/

/-- Score stored for one ordered pair of loaded files, if any: a known
duplicate pair short-circuits to 1.0 before any shingle comparison; other
pairs are scored by Smith-Waterman only when their Jaccard similarity
reaches `SIMILARITY_THRESHOLD = 0.7` (similarity.rs lines 91-109). -/
def pair_score (duplicate_files : List String) (e1 e2 : String × String) : Option ℚ :=
  if e1.1 ∈ duplicate_files ∧ e2.1 ∈ duplicate_files then some 1
  else if (7 : ℚ) / 10 ≤ shingle_similarity (shingle_file e1.2) (shingle_file e2.2) then
    some (smith_waterman_rolling e1.2 e2.2)
  else none

/-- Translation of the pair loop of `FileSimilarity::calculate_similarity`
(similarity.rs lines 83-112) on the loaded `(path, content)` list: every
pair `(i, j)` with `i < j` contributes an entry keyed `(path_i, path_j)`
when `pair_score` produces one.  The source writes the entries to a shared
mutex-guarded map from parallel workers; the embedding lists the entries in
deterministic pair order, which carries the same key-score mapping. -/
def calculate_similarity (duplicate_files : List String) :
    List (String × String) → List ((String × String) × ℚ)
  | [] => []
  | e :: rest =>
    rest.filterMap (fun e2 => (pair_score duplicate_files e e2).map fun q => ((e.1, e2.1), q))
      ++ calculate_similarity duplicate_files rest

/-! ### Loading (`FileSimilarity::load_files`) and the result store -/

/-- Read outcome of one file for `load_files`: `none` when `File::open`
fails; `some none` when the file opens but `read_to_string` fails (for
example on content that is not valid UTF-8); `some (some c)` on success. -/
abbrev ReadOracle := String → Option (Option String)

/-- Translation of `FileSimilarity::load_files` (similarity.rs lines 29-42).
Files that fail to open are skipped; a successful read is kept when
`is_relevant_size` holds (`content.len() <= MAX_FILE_SIZE = 100 * 1024`).
A file whose open succeeds but whose read fails hits
`read_to_string(...).unwrap()`, which panics and aborts the whole batch;
the panic is modelled as `Except.error`. -/
def load_files (read : ReadOracle) : List String → Except Unit (List (String × String))
  | [] => .ok []
  | f :: rest =>
    match read f with
    | none => load_files read rest
    | some none => .error ()
    | some (some c) =>
      match load_files read rest with
      | .error u => .error u
      | .ok l => .ok (if utf8Len c ≤ 100 * 1024 then (f, c) :: l else l)

/-- Translation of `FileSimilarity::get_similar_files` (similarity.rs lines
151-157): clone every stored `(pair, score)` entry, in the store's
iteration order.  No sorting or filtering is applied. -/
def get_similar_files (scores : List ((String × String) × ℚ)) :
    List ((String × String) × ℚ) :=
  scores.map fun e => (e.1, e.2)

/-! ## Helper lemmas -/

/-- Membership in a fold that inserts one element per index. -/
theorem mem_foldl_insert (f : Nat → String) :
    ∀ (l : List Nat) (init : Finset String) (s : String),
      s ∈ l.foldl (fun acc i => insert (f i) acc) init ↔ s ∈ init ∨ ∃ i ∈ l, s = f i := by
  intro l
  induction l with
  | nil => simp
  | cons a as ih =>
    intro init s
    rw [List.foldl_cons, ih]
    simp only [Finset.mem_insert, List.mem_cons]
    constructor
    · rintro (⟨h | h⟩ | ⟨i, hi, hs⟩)
      · exact Or.inr ⟨a, Or.inl rfl, h⟩
      · exact Or.inl h
      · exact Or.inr ⟨i, Or.inr hi, hs⟩
    · rintro (h | ⟨i, hi | hi, hs⟩)
      · exact Or.inl (Or.inr h)
      · exact Or.inl (Or.inl (hi ▸ hs))
      · exact Or.inr ⟨i, hi, hs⟩

/-! ## C4 — shingle windows -/

/-- C4 counterexample: for the content "a b" the tokenization has exactly
`n = 2` words and the shingle size is `k = 2`, so the claim demands the
single window `w[0..2] = "a b"` (the index `i = n - k = 0` is allowed);
the code's loop bound `0..n.saturating_sub(k)` is empty and the shingle set
comes out empty, missing that window. -/
theorem shingle_file_misses_last_window :
    (splitWs "a b").length = 2 ∧ determine_shingle_size (utf8Len "a b") = 2 ∧
      shingleAt (splitWs "a b") 2 0 = "a b" ∧ shingle_file "a b" = ∅ := by
  decide

/-- C4 (amended): `shingle_file` returns exactly the contiguous word
shingles starting at indices `0 ≤ i < n - k` (truncated subtraction), where
`k = clamp(byte_length / 50, 2, 10)`; the window at `i = n - k` is never
produced, so the set is empty whenever `n ≤ k`. -/
theorem shingle_file_windows (content s : String) :
    s ∈ shingle_file content ↔
      ∃ i < (splitWs content).length - determine_shingle_size (utf8Len content),
        s = shingleAt (splitWs content) (determine_shingle_size (utf8Len content)) i := by
  unfold shingle_file
  by_cases h : (splitWs content).length < determine_shingle_size (utf8Len content)
  · simp only [h, if_true]
    have hz : (splitWs content).length - determine_shingle_size (utf8Len content) = 0 :=
      Nat.sub_eq_zero_of_le h.le
    simp [hz]
  · simp only [h, if_false]
    rw [mem_foldl_insert]
    simp [List.mem_range]

/-! ## C10 — similarity store enumeration -/

/-- Descending-score ordering: each entry's score is at least the next
entry's score. -/
abbrev sortedByScoreDesc (l : List ((String × String) × ℚ)) : Prop :=
  l.Chain' fun a b => b.2 ≤ a.2

/-- C10 counterexample: a store state holding the pairs `(a, b) ↦ 1/2` and
`(c, d) ↦ 9/10` in that iteration order is returned by `get_similar_files`
in the same order, which is not sorted by descending score. -/
theorem get_similar_files_not_sorted :
    ¬ sortedByScoreDesc (get_similar_files [(("a", "b"), 1 / 2), (("c", "d"), 9 / 10)]) := by
  simp only [sortedByScoreDesc, get_similar_files, List.map_cons, List.map_nil,
    List.chain'_cons, List.chain'_singleton, and_true]
  norm_num

/-- C10 (amended): `get_similar_files` returns every stored pair exactly
once, in the store's iteration order; no sorting by score is applied (the
report layer sorts separately). -/
theorem get_similar_files_id (scores : List ((String × String) × ℚ)) :
    get_similar_files scores = scores := by
  simp [get_similar_files]

/-! ## C2 — scenario a.txt / b.txt / c.txt -/

/-- Content oracle of scenario 1: `a.txt` and `b.txt` hold "Hello, world!"
and `c.txt` holds "Different content". -/
def abcFs : String → Option String := fun p =>
  if p = "a.txt" ∨ p = "b.txt" then some "Hello, world!"
  else if p = "c.txt" then some "Different content" else none

/-- Result of running the grouping + duplicate-detection pipeline on the
scenario-1 directory (file sizes 13 and 17 bytes). -/
def abcPipeline : DuplicateResults :=
  detect_duplicates abcFs
    (fun p => if p = "c.txt" then some 17 else some 13)
    ((group_files skimModel id ["a.txt", "b.txt", "c.txt"]).map fun e =>
      { canonical_name := e.1, variants := e.2 })

/-- C2 counterexample: the pipeline on the scenario-1 directory reports no
duplicates at all — `total_duplicates` is 0, not 1, and there is no
DuplicateSet containing `a.txt` and `b.txt`. -/
theorem abc_pipeline_total_ne_one : abcPipeline.total_duplicates ≠ 1 := by
  decide

/-- C2 (amended): the three stems `a`, `b`, `c` normalize to three distinct
names that do not fuzzy-match each other, so the files land in three
singleton FileGroups; `detect_duplicates` skips groups with fewer than two
members, hence the pipeline reports no duplicate sets, `total_duplicates = 0`
and no file (in particular `c.txt`) appears in any DuplicateSet. -/
theorem abc_pipeline_reports_nothing :
    group_files skimModel id ["a.txt", "b.txt", "c.txt"] =
      [("a", ["a.txt"]), ("b", ["b.txt"]), ("c", ["c.txt"])] ∧
    abcPipeline = DuplicateResults.new := by
  decide

/-! ## C6 — per-file failure absorption -/

deriving instance DecidableEq for Except

/-- Read oracle with one poisoned file: `bad.bin` opens but its content
fails to decode; every other file reads "hello". -/
def c6Read : ReadOracle := fun p =>
  if p = "bad.bin" then some none else some (some "hello")

/-- C6: the duplicate detector absorbs the failing file (hashing skips it
and still pairs the two healthy files), but the similarity engine's
`load_files` hits `read_to_string(...).unwrap()` on the same file and the
whole batch aborts — no other file of the batch is loaded. -/
theorem load_files_aborts_on_read_failure :
    load_files c6Read ["f1.txt", "bad.bin", "f2.txt"] = .error () ∧
    find_exact_duplicates_in_group
        (fun p => if p = "bad.bin" then none else some "same")
        { canonical_name := "g", variants := ["f1.txt", "bad.bin", "f2.txt"] } =
      [["f1.txt", "f2.txt"]] := by
  decide

/-! ## C3 — duplicate accounting invariant -/

/-- Contribution of one duplicate set to `total_duplicates`. -/
def setDupCount (s : List String) : Nat := s.length - 1

/-- Contribution of one duplicate set to `space_wasted`: the sizes of every
member except the first (0 for a member whose metadata is unavailable). -/
def setWasted (meta : String → Option Nat) (s : List String) : Nat :=
  ((s.drop 1).map fun f => (meta f).getD 0).sum

/-- Unfolded effect of the per-set fold inside `add_duplicate_group`. -/
theorem add_duplicate_group_fold (meta : String → Option Nat) :
    ∀ (sets : List (List String)) (r : DuplicateResults),
      sets.foldl
        (fun acc s =>
          if s.length > 1 then
            { acc with
              total_duplicates := acc.total_duplicates + (s.length - 1),
              space_wasted := acc.space_wasted +
                ((s.drop 1).map fun f => (meta f).getD 0).sum }
          else acc) r =
      { r with
        total_duplicates := r.total_duplicates + (sets.map setDupCount).sum,
        space_wasted := r.space_wasted + (sets.map (setWasted meta)).sum } := by
  intro sets
  induction sets with
  | nil => intro r; simp
  | cons s ss ih =>
    intro r
    rw [List.foldl_cons, ih]
    by_cases h : s.length > 1
    · simp only [h, if_true, List.map_cons, List.sum_cons, setDupCount, setWasted]
      congr 1 <;> omega
    · have h1 : s.length - 1 = 0 := by omega
      have h2 : s.drop 1 = [] := by
        cases s with
        | nil => rfl
        | cons a t =>
          cases t with
          | nil => rfl
          | cons b u => simp at h
      simp only [h, if_false, List.map_cons, List.sum_cons, setDupCount, setWasted, h1, h2]
      simp

/-- Statistics added by one `add_duplicate_group` call. -/
theorem add_duplicate_group_spec (meta : String → Option Nat)
    (r : DuplicateResults) (g : DuplicateGroup) :
    add_duplicate_group meta r g =
      { total_duplicates := r.total_duplicates + (g.duplicate_sets.map setDupCount).sum,
        space_wasted := r.space_wasted + (g.duplicate_sets.map (setWasted meta)).sum,
        duplicate_groups := r.duplicate_groups ++ [g] } := by
  unfold add_duplicate_group
  rw [add_duplicate_group_fold]

/-- C3: after folding `add_duplicate_group` over any sequence of
DuplicateGroups whose duplicate sets satisfy the DuplicateSet invariant
(at least two members, all members but the first with available on-disk
metadata), `total_duplicates` is the sum over all contained sets of
`set.size - 1` and `space_wasted` is the sum of the on-disk sizes of every
member except the first of each set. -/
theorem duplicate_accounting (meta : String → Option Nat) (gs : List DuplicateGroup)
    (_hsize : ∀ g ∈ gs, ∀ s ∈ g.duplicate_sets, 2 ≤ s.length)
    (_hmeta : ∀ g ∈ gs, ∀ s ∈ g.duplicate_sets, ∀ f ∈ s.drop 1, (meta f).isSome) :
    (gs.foldl (add_duplicate_group meta) DuplicateResults.new).total_duplicates =
      (gs.map fun g => (g.duplicate_sets.map setDupCount).sum).sum ∧
    (gs.foldl (add_duplicate_group meta) DuplicateResults.new).space_wasted =
      (gs.map fun g => (g.duplicate_sets.map (setWasted meta)).sum).sum := by
  have main : ∀ (l : List DuplicateGroup) (r : DuplicateResults),
      (l.foldl (add_duplicate_group meta) r).total_duplicates =
        r.total_duplicates + (l.map fun g => (g.duplicate_sets.map setDupCount).sum).sum ∧
      (l.foldl (add_duplicate_group meta) r).space_wasted =
        r.space_wasted + (l.map fun g => (g.duplicate_sets.map (setWasted meta)).sum).sum := by
    intro l
    induction l with
    | nil => intro r; simp
    | cons g l ih =>
      intro r
      rw [List.foldl_cons, add_duplicate_group_spec]
      rcases ih _ with ⟨h1, h2⟩
      rw [h1, h2]
      simp only [List.map_cons, List.sum_cons]
      constructor <;> omega
  rcases main gs DuplicateResults.new with ⟨h1, h2⟩
  rw [h1, h2]
  simp [DuplicateResults.new]

/-- C3 witness: one group holding the sets `[a, b, c]` and `[d, e]`, every
file 5 bytes on disk; the invariant gives 3 duplicates and 15 wasted
bytes. -/
theorem duplicate_accounting_witness :
    (([({ base_name := "g",
          duplicate_sets := [["a", "b", "c"], ["d", "e"]] } : DuplicateGroup)]).foldl
        (add_duplicate_group fun _ => some 5) DuplicateResults.new).total_duplicates =
      (([({ base_name := "g",
            duplicate_sets := [["a", "b", "c"], ["d", "e"]] } : DuplicateGroup)]).map
          fun g => (g.duplicate_sets.map setDupCount).sum).sum ∧
    (([({ base_name := "g",
          duplicate_sets := [["a", "b", "c"], ["d", "e"]] } : DuplicateGroup)]).foldl
        (add_duplicate_group fun _ => some 5) DuplicateResults.new).space_wasted =
      (([({ base_name := "g",
            duplicate_sets := [["a", "b", "c"], ["d", "e"]] } : DuplicateGroup)]).map
          fun g => (g.duplicate_sets.map (setWasted fun _ => some 5)).sum).sum :=
  duplicate_accounting (fun _ => some 5) _ (by decide) (by decide)

/-! ## C5 — stage-3 gating -/

/-- Entries of an association list with no duplicate first components are
determined by their first component. -/
theorem eq_of_fst_eq {β : Type} {l : List (String × β)}
    (hnd : (l.map Prod.fst).Nodup) {a b : String × β}
    (ha : a ∈ l) (hb : b ∈ l) (h : a.1 = b.1) : a = b := by
  induction l with
  | nil => cases ha
  | cons x t ih =>
    rw [List.map_cons, List.nodup_cons] at hnd
    rcases List.mem_cons.1 ha with rfl | ha' <;>
      rcases List.mem_cons.1 hb with rfl | hb'
    · rfl
    · exact absurd (List.mem_map.2 ⟨b, hb', h.symm⟩) hnd.1
    · exact absurd (List.mem_map.2 ⟨a, ha', h⟩) hnd.1
    · exact ih hnd.2 ha' hb'

/-- Every key stored by `calculate_similarity` pairs the path of an earlier
loaded file with the path of a later one. -/
theorem calc_sim_mem_keys (dups : List String) :
    ∀ (loaded : List (String × String)) (pr : String × String) (q : ℚ),
      (pr, q) ∈ calculate_similarity dups loaded →
      pr.1 ∈ loaded.map Prod.fst ∧ pr.2 ∈ loaded.map Prod.fst := by
  intro loaded
  induction loaded with
  | nil => intro pr q h; cases h
  | cons e rest ih =>
    intro pr q h
    rw [calculate_similarity, List.mem_append] at h
    rcases h with h | h
    · rcases List.mem_filterMap.1 h with ⟨e2, he2, hmap⟩
      rcases Option.map_eq_some'.1 hmap with ⟨q', _, hpair⟩
      cases hpair
      exact ⟨List.mem_cons_self _ _,
        List.mem_cons_of_mem _ (List.mem_map.2 ⟨e2, he2, rfl⟩)⟩
    · rcases ih pr q h with ⟨h1, h2⟩
      exact ⟨List.mem_cons_of_mem _ h1, List.mem_cons_of_mem _ h2⟩

/-- Characterization of the entry stored for the pair `(p1, p2)`: when
`(p1, c1)` is loaded before `(p2, c2)` and loaded paths are distinct, the
store holds `((p1, p2), q)` exactly when `pair_score` produces `q` for the
two contents. -/
theorem calc_sim_mem_iff (dups : List String) :
    ∀ (loaded : List (String × String)) (p1 c1 p2 c2 : String),
      [(p1, c1), (p2, c2)].Sublist loaded →
      (loaded.map Prod.fst).Nodup →
      ∀ q : ℚ, ((p1, p2), q) ∈ calculate_similarity dups loaded ↔
        pair_score dups (p1, c1) (p2, c2) = some q := by
  intro loaded
  induction loaded with
  | nil => intro p1 c1 p2 c2 hsub; cases hsub
  | cons e rest ih =>
    intro p1 c1 p2 c2 hsub hnd q
    have hnd' : (rest.map Prod.fst).Nodup := by
      rw [List.map_cons, List.nodup_cons] at hnd; exact hnd.2
    have hhead : e.1 ∉ rest.map Prod.fst := by
      rw [List.map_cons, List.nodup_cons] at hnd; exact hnd.1
    rw [calculate_similarity, List.mem_append]
    cases hsub with
    | cons _ hsub' =>
      have hp1 : p1 ∈ rest.map Prod.fst := by
        have : (p1, c1) ∈ rest := hsub'.subset (List.mem_cons_self _ _)
        exact List.mem_map.2 ⟨_, this, rfl⟩
      have hne : e.1 ≠ p1 := fun h => hhead (h ▸ hp1)
      rw [ih p1 c1 p2 c2 hsub' hnd' q |>.symm] at *
      constructor
      · rintro (h | h)
        · rcases List.mem_filterMap.1 h with ⟨e2, _, hmap⟩
          rcases Option.map_eq_some'.1 hmap with ⟨q', _, hpair⟩
          cases hpair
          exact absurd rfl hne
        · exact h
      · intro h
        exact Or.inr h
    | cons₂ _ hsub' =>
      have hp2 : (p2, c2) ∈ rest := hsub'.subset (List.mem_cons_self _ _)
      constructor
      · rintro (h | h)
        · rcases List.mem_filterMap.1 h with ⟨e2, he2, hmap⟩
          rcases Option.map_eq_some'.1 hmap with ⟨q', hq', hpair⟩
          injection hpair with hkey hval
          injection hkey with hk1 hk2
          have he2' : e2 = (p2, c2) :=
            eq_of_fst_eq hnd' he2 hp2 hk2
          subst hval
          rw [← he2']
          exact hq'
        · rcases calc_sim_mem_keys dups rest (p1, p2) q h with ⟨h1, _⟩
          exact absurd h1 hhead
      · intro h
        exact Or.inl (List.mem_filterMap.2 ⟨(p2, c2), hp2, by rw [h]; rfl⟩)

/-- C5: for every unordered pair of loaded candidate files (with `(p1, c1)`
loaded before `(p2, c2)` and distinct loaded paths), `calculate_similarity`
stores a score for the pair if and only if both paths are known duplicates
or the Jaccard similarity of the two shingle sets reaches the 0.7
threshold; the stored score is exactly 1 in the first case and the
normalized Smith-Waterman score in the second. -/
theorem similarity_gating (dups : List String) (loaded : List (String × String))
    (p1 c1 p2 c2 : String)
    (hsub : [(p1, c1), (p2, c2)].Sublist loaded)
    (hnd : (loaded.map Prod.fst).Nodup) :
    ((∃ q : ℚ, ((p1, p2), q) ∈ calculate_similarity dups loaded) ↔
      (p1 ∈ dups ∧ p2 ∈ dups) ∨
        (7 : ℚ) / 10 ≤ shingle_similarity (shingle_file c1) (shingle_file c2)) ∧
    ∀ q : ℚ, ((p1, p2), q) ∈ calculate_similarity dups loaded →
      q = if p1 ∈ dups ∧ p2 ∈ dups then 1 else smith_waterman_rolling c1 c2 := by
  have key := calc_sim_mem_iff dups loaded p1 c1 p2 c2 hsub hnd
  constructor
  · constructor
    · rintro ⟨q, hq⟩
      rw [key q] at hq
      unfold pair_score at hq
      split_ifs at hq with h1 h2
      · exact Or.inl h1
      · exact Or.inr h2
    · rintro (h | h)
      · exact ⟨1, (key 1).2 (by unfold pair_score; rw [if_pos h])⟩
      · by_cases h1 : p1 ∈ dups ∧ p2 ∈ dups
        · exact ⟨1, (key 1).2 (by unfold pair_score; rw [if_pos h1])⟩
        · exact ⟨smith_waterman_rolling c1 c2,
            (key _).2 (by unfold pair_score; rw [if_neg h1, if_pos h])⟩
  · intro q hq
    rw [key q] at hq
    unfold pair_score at hq
    split_ifs at hq with h1 h2
    · rw [if_pos h1]; exact (Option.some_inj.1 hq).symm
    · rw [if_neg h1]; exact (Option.some_inj.1 hq).symm

/-- C5 witness: two loaded files with identical seven-word contents, no
known duplicates; the pair passes the Jaccard gate and stores the
Smith-Waterman score. -/
theorem similarity_gating_witness :
    ((∃ q : ℚ, (("a", "b"), q) ∈
        calculate_similarity []
          [("a", "one two three four five six seven"),
           ("b", "one two three four five six seven")]) ↔
      ("a" ∈ ([] : List String) ∧ "b" ∈ ([] : List String)) ∨
        (7 : ℚ) / 10 ≤ shingle_similarity
          (shingle_file "one two three four five six seven")
          (shingle_file "one two three four five six seven")) ∧
    ∀ q : ℚ, (("a", "b"), q) ∈
        calculate_similarity []
          [("a", "one two three four five six seven"),
           ("b", "one two three four five six seven")] →
      q = if "a" ∈ ([] : List String) ∧ "b" ∈ ([] : List String) then 1
        else smith_waterman_rolling "one two three four five six seven"
          "one two three four five six seven" :=
  similarity_gating [] _ "a" "one two three four five six seven"
    "b" "one two three four five six seven" (List.Sublist.refl _) (by decide)

/-! ## Smith-Waterman: full-matrix characterization of the rolling loop -/

/-- Unfolding of the zero row of the matrix. -/
theorem swH_zero_left (s1 s2 : String) (j : Nat) : swH s1 s2 0 j = 0 := by
  simp [swH]

/-- Unfolding of the zero column of the matrix. -/
theorem swH_zero_right (s1 s2 : String) (i : Nat) : swH s1 s2 i 0 = 0 := by
  cases i <;> simp [swH]

/-- Unfolding of an interior cell of the matrix. -/
theorem swH_succ_succ (s1 s2 : String) (i j : Nat) :
    swH s1 s2 (i + 1) (j + 1) =
      swCell (swH s1 s2 i j) (swH s1 s2 i (j + 1)) (swH s1 s2 (i + 1) j)
        (mmScore s1 s2 i j) := by
  rw [swH]

/-- Unfolding of one inner-loop step. -/
theorem nextRowCells_cons (a b : Option Char) (bs : List (Option Char))
    (p0 p1 : Int) (ps : List Int) (left : Int) :
    nextRowCells a (b :: bs) (p0 :: p1 :: ps) left =
      swCell p0 p1 left (if a = b then 3 else -1) ::
        nextRowCells a bs (p1 :: ps) (swCell p0 p1 left (if a = b then 3 else -1)) := rfl

/-- The inner loop maps the previous matrix row to the next matrix row: when
fed the columns from `j` on, row `i` of the matrix from entry `j` on, and
the cell `(i+1, j)` just written, it produces the cells `(i+1, j+1 ...)`. -/
theorem nextRowCells_spec (s1 s2 : String) (i : Nat) :
    ∀ (k j : Nat),
      nextRowCells (s1.data.get? i)
          ((List.range' j k).map fun t => s2.data.get? t)
          ((List.range' j (k + 1)).map fun t => swH s1 s2 i t)
          (swH s1 s2 (i + 1) j) =
        (List.range' (j + 1) k).map fun t => swH s1 s2 (i + 1) t := by
  intro k
  induction k with
  | zero =>
    intro j
    simp [nextRowCells]
  | succ k ihk =>
    intro j
    have hbs : (List.range' j (k + 1)).map (fun t => s2.data.get? t) =
        s2.data.get? j :: (List.range' (j + 1) k).map (fun t => s2.data.get? t) := by
      simp [List.range'_succ]
    have hprev : (List.range' j (k + 1 + 1)).map (fun t => swH s1 s2 i t) =
        swH s1 s2 i j :: swH s1 s2 i (j + 1) ::
          (List.range' (j + 2) k).map (fun t => swH s1 s2 i t) := by
      rw [List.range'_succ j (k + 1) 1, List.range'_succ (j + 1) k 1]
      rfl
    have hres : (List.range' (j + 1) (k + 1)).map (fun t => swH s1 s2 (i + 1) t) =
        swH s1 s2 (i + 1) (j + 1) ::
          (List.range' (j + 2) k).map (fun t => swH s1 s2 (i + 1) t) := by
      rw [List.range'_succ (j + 1) k 1]
      rfl
    rw [hbs, hprev, hres, nextRowCells_cons]
    have hcell : swCell (swH s1 s2 i j) (swH s1 s2 i (j + 1)) (swH s1 s2 (i + 1) j)
        (if s1.data.get? i = s2.data.get? j then 3 else -1) = swH s1 s2 (i + 1) (j + 1) := by
      rw [swH_succ_succ, mmScore]
    rw [hcell]
    congr 1
    have hprev2 : swH s1 s2 i (j + 1) :: (List.range' (j + 2) k).map (fun t => swH s1 s2 i t) =
        (List.range' (j + 1) (k + 1)).map fun t => swH s1 s2 i t := by
      rw [List.range'_succ (j + 1) k 1]
      rfl
    rw [hprev2]
    exact ihk (j + 1)

/-- Maximum over all interior cells of the full matrix in row-major order,
starting from 0: the final value of `max_score`. -/
def swMax (s1 s2 : String) : Int :=
  (List.range (utf8Len s1)).foldl
    (fun acc i =>
      ((List.range (utf8Len s2)).map fun j => swH s1 s2 (i + 1) (j + 1)).foldl max acc) 0

/-- The outer loop folds the row maxima of all remaining rows into the
accumulator. -/
theorem swRollAux_spec (s1 s2 : String) :
    ∀ (k i : Nat) (acc : Int),
      swRollAux ((List.range (utf8Len s2)).map fun j => s2.data.get? j)
          ((List.range' i k).map fun t => s1.data.get? t)
          ((List.range' 0 (utf8Len s2 + 1)).map fun t => swH s1 s2 i t) acc =
        (List.range' i k).foldl
          (fun a t =>
            ((List.range' 1 (utf8Len s2)).map fun u => swH s1 s2 (t + 1) u).foldl max a)
          acc := by
  intro k
  induction k with
  | zero =>
    intro i acc
    simp [swRollAux]
  | succ k ih =>
    intro i acc
    have has : (List.range' i (k + 1)).map (fun t => s1.data.get? t) =
        s1.data.get? i :: (List.range' (i + 1) k).map (fun t => s1.data.get? t) := by
      simp [List.range'_succ]
    rw [has, swRollAux]
    have hcells : nextRowCells (s1.data.get? i)
          ((List.range (utf8Len s2)).map fun j => s2.data.get? j)
          ((List.range' 0 (utf8Len s2 + 1)).map fun t => swH s1 s2 i t) 0 =
        (List.range' 1 (utf8Len s2)).map fun t => swH s1 s2 (i + 1) t := by
      rw [List.range_eq_range' (utf8Len s2)]
      rw [show (0 : Int) = swH s1 s2 (i + 1) 0 from (swH_zero_right s1 s2 (i + 1)).symm]
      exact nextRowCells_spec s1 s2 i (utf8Len s2) 0
    rw [hcells]
    have hnext : (0 : Int) :: ((List.range' 1 (utf8Len s2)).map fun t => swH s1 s2 (i + 1) t) =
        (List.range' 0 (utf8Len s2 + 1)).map fun t => swH s1 s2 (i + 1) t := by
      rw [List.range'_succ 0 (utf8Len s2) 1, List.map_cons, swH_zero_right]
    rw [hnext, ih (i + 1)]
    rw [List.range'_succ i k 1, List.foldl_cons]

/-- The rolling two-row evaluation computes exactly the maximum cell value
of the full dynamic-programming matrix. -/
theorem swRollingMax_eq (s1 s2 : String) : swRollingMax s1 s2 = swMax s1 s2 := by
  unfold swRollingMax swMax
  have h0 : List.replicate (utf8Len s2 + 1) (0 : Int) =
      (List.range' 0 (utf8Len s2 + 1)).map fun t => swH s1 s2 0 t := by
    symm
    apply List.eq_replicate_iff.2
    constructor
    · simp
    · intro b hb
      rcases List.mem_map.1 hb with ⟨t, _, rfl⟩
      exact swH_zero_left s1 s2 t
  rw [List.range_eq_range' (utf8Len s1), h0, swRollAux_spec]
  have hrow : ∀ t : Nat,
      ((List.range' 1 (utf8Len s2)).map fun u => swH s1 s2 (t + 1) u) =
        (List.range (utf8Len s2)).map fun j => swH s1 s2 (t + 1) (j + 1) := by
    intro t
    rw [List.range'_eq_map_range 1 (utf8Len s2), List.map_map]
    apply List.map_congr_left
    intro j _
    simp [Nat.add_comm]
  have hfun : (fun (a : Int) (t : Nat) =>
        ((List.range' 1 (utf8Len s2)).map fun u => swH s1 s2 (t + 1) u).foldl max a) =
      fun (a : Int) (t : Nat) =>
        ((List.range (utf8Len s2)).map fun j => swH s1 s2 (t + 1) (j + 1)).foldl max a := by
    funext a t
    rw [hrow t]
  rw [hfun]

/-! ## Smith-Waterman: cell bounds, diagonal, symmetry -/

/-- Every cell of the matrix is nonnegative (scores are clamped at 0). -/
theorem swH_nonneg (s1 s2 : String) : ∀ i j, 0 ≤ swH s1 s2 i j := by
  intro i j
  match i, j with
  | 0, _ => rw [swH_zero_left]
  | _ + 1, 0 => rw [swH_zero_right]
  | i + 1, j + 1 =>
    rw [swH_succ_succ]
    exact le_max_left 0 _

/-- Every cell is bounded by three times the shorter of its coordinates:
an alignment ending at `(i, j)` can match at most `min i j` characters. -/
theorem swH_le (s1 s2 : String) : ∀ i j, swH s1 s2 i j ≤ 3 * ((min i j : Nat) : Int) := by
  intro i
  induction i with
  | zero =>
    intro j
    rw [swH_zero_left]
    positivity
  | succ i ih =>
    intro j
    induction j with
    | zero =>
      rw [swH_zero_right]
      positivity
    | succ j ihj =>
      have h1 := ih j
      have h2 := ih (j + 1)
      have h3 := ihj
      rw [swH_succ_succ, swCell]
      have hmm : mmScore s1 s2 i j ≤ 3 := by
        rw [mmScore]
        split <;> omega
      simp only [max_le_iff]
      refine ⟨by positivity, ?_, ?_, ?_⟩ <;> push_cast at * <;> omega

/-- On identical strings the diagonal cell `(i, i)` is exactly `3 * i`:
every diagonal step is a match worth 3. -/
theorem swH_diag (s : String) : ∀ i, swH s s i i = 3 * (i : Int) := by
  intro i
  induction i with
  | zero => rw [swH_zero_left]; simp
  | succ i ih =>
    have h1 := swH_le s s i (i + 1)
    have h2 := swH_le s s (i + 1) i
    have hmm : mmScore s s i i = 3 := by
      rw [mmScore, if_pos rfl]
    rw [swH_succ_succ, swCell, hmm, ih]
    have hmin1 : min i (i + 1) = i := by omega
    have hmin2 : min (i + 1) i = i := by omega
    rw [hmin1] at h1
    rw [hmin2] at h2
    have : max (swH s s i (i + 1) - 2) (swH s s (i + 1) i - 2) ≤ 3 * (i : Int) + 3 := by
      simp only [max_le_iff]
      constructor <;> push_cast at * <;> omega
    push_cast
    rw [max_eq_right, max_eq_left] <;> push_cast at * <;> omega

/-- A fold of `max` never drops below its accumulator. -/
theorem le_foldl_max_init (l : List Int) : ∀ acc : Int, acc ≤ l.foldl max acc := by
  induction l with
  | nil => intro acc; exact le_rfl
  | cons x t ih =>
    intro acc
    exact le_trans (le_max_left acc x) (ih (max acc x))

/-- A fold of `max` dominates every list element. -/
theorem le_foldl_max_mem (l : List Int) : ∀ (acc x : Int), x ∈ l → x ≤ l.foldl max acc := by
  induction l with
  | nil => intro _ x hx; cases hx
  | cons a t ih =>
    intro acc x hx
    rcases List.mem_cons.1 hx with rfl | hx'
    · exact le_trans (le_max_right acc x) (le_foldl_max_init t (max acc x))
    · exact ih (max acc a) x hx'

/-- A fold of `max` is bounded by any bound of the accumulator and of all
elements. -/
theorem foldl_max_le (l : List Int) :
    ∀ (acc b : Int), acc ≤ b → (∀ x ∈ l, x ≤ b) → l.foldl max acc ≤ b := by
  induction l with
  | nil => intro acc b h _; exact h
  | cons a t ih =>
    intro acc b h hall
    exact ih (max acc a) b (max_le h (hall a (List.mem_cons_self a t)))
      fun x hx => hall x (List.mem_cons_of_mem a hx)

/-- A nested row-major `max` fold never drops below its accumulator. -/
theorem nested_foldl_le_init (rows : Nat → List Int) :
    ∀ (l : List Nat) (acc : Int), acc ≤ l.foldl (fun a t => (rows t).foldl max a) acc := by
  intro l
  induction l with
  | nil => intro acc; exact le_rfl
  | cons x t ih =>
    intro acc
    exact le_trans (le_foldl_max_init (rows x) acc) (ih _)

/-- A nested row-major `max` fold dominates every element of every row. -/
theorem nested_foldl_le_mem (rows : Nat → List Int) :
    ∀ (l : List Nat) (acc : Int) (i : Nat), i ∈ l →
      ∀ x ∈ rows i, x ≤ l.foldl (fun a t => (rows t).foldl max a) acc := by
  intro l
  induction l with
  | nil => intro _ i hi; cases hi
  | cons a t ih =>
    intro acc i hi x hx
    rcases List.mem_cons.1 hi with rfl | hi'
    · exact le_trans (le_foldl_max_mem (rows i) acc x hx) (nested_foldl_le_init rows t _)
    · exact ih _ i hi' x hx

/-- A nested row-major `max` fold is bounded by any common bound. -/
theorem nested_foldl_le (rows : Nat → List Int) :
    ∀ (l : List Nat) (acc b : Int), acc ≤ b → (∀ i ∈ l, ∀ x ∈ rows i, x ≤ b) →
      l.foldl (fun a t => (rows t).foldl max a) acc ≤ b := by
  intro l
  induction l with
  | nil => intro acc b h _; exact h
  | cons a t ih =>
    intro acc b h hall
    exact ih _ b
      (foldl_max_le (rows a) acc b h (hall a (List.mem_cons_self a t)))
      fun i hi x hx => hall i (List.mem_cons_of_mem a hi) x hx

/-- The tracked maximum is nonnegative (it starts at 0). -/
theorem swMax_nonneg (s1 s2 : String) : 0 ≤ swMax s1 s2 :=
  nested_foldl_le_init _ _ 0

/-- The tracked maximum dominates every interior cell. -/
theorem le_swMax (s1 s2 : String) (i j : Nat) (hi : i < utf8Len s1) (hj : j < utf8Len s2) :
    swH s1 s2 (i + 1) (j + 1) ≤ swMax s1 s2 :=
  nested_foldl_le_mem _ _ 0 i (List.mem_range.2 hi)
    _ (List.mem_map.2 ⟨j, List.mem_range.2 hj, rfl⟩)

/-- The tracked maximum is bounded by any bound on 0 and on the interior
cells. -/
theorem swMax_le (s1 s2 : String) (b : Int) (h0 : 0 ≤ b)
    (hc : ∀ i j, i < utf8Len s1 → j < utf8Len s2 → swH s1 s2 (i + 1) (j + 1) ≤ b) :
    swMax s1 s2 ≤ b := by
  apply nested_foldl_le _ _ 0 b h0
  intro i hi x hx
  rcases List.mem_map.1 hx with ⟨j, hj, rfl⟩
  exact hc i j (List.mem_range.1 hi) (List.mem_range.1 hj)

/-- Nonempty strings have at least one UTF-8 byte. -/
theorem utf8Len_pos (s : String) (h : s ≠ "") : 0 < utf8Len s := by
  cases hd : s.data with
  | nil => exact absurd (String.ext (by simpa using hd)) h
  | cons c cs =>
    unfold utf8Len
    rw [hd, List.map_cons, List.sum_cons]
    have := Char.utf8Size_pos c
    omega

/-- C8: on every non-empty content string `s`, the maximum cell of the
alignment matrix for `(s, s)` is exactly `len(s) * MATCH_SCORE = 3 * len(s)`
and the reported normalized score `max_cell / (max(len, len) * 3)` is
exactly 1. -/
theorem identical_content_score (s : String) (h : s ≠ "") :
    swRollingMax s s = 3 * (utf8Len s : Int) ∧ smith_waterman_rolling s s = 1 := by
  have hn : 0 < utf8Len s := utf8Len_pos s h
  have hmax : swMax s s = 3 * (utf8Len s : Int) := by
    apply le_antisymm
    · apply swMax_le _ _ _ (by positivity)
      intro i j hi hj
      have hb := swH_le s s (i + 1) (j + 1)
      have hminle : min (i + 1) (j + 1) ≤ utf8Len s := by omega
      calc swH s s (i + 1) (j + 1) ≤ 3 * ((min (i + 1) (j + 1) : Nat) : Int) := hb
        _ ≤ 3 * (utf8Len s : Int) := by push_cast; omega
    · have hcell := le_swMax s s (utf8Len s - 1) (utf8Len s - 1) (by omega) (by omega)
      have hsucc : utf8Len s - 1 + 1 = utf8Len s := by omega
      rw [hsucc, swH_diag] at hcell
      exact hcell
  constructor
  · rw [swRollingMax_eq]
    exact hmax
  · rw [smith_waterman_rolling, swRollingMax_eq, hmax, max_self]
    rw [div_eq_one_iff_eq]
    · push_cast
      ring
    · have : (0 : ℚ) < (utf8Len s : ℚ) * 3 := by
        have : (0 : ℚ) < (utf8Len s : ℚ) := by exact_mod_cast hn
        linarith
      exact ne_of_gt this

/-- C8 witness: the two-byte string "ab" is nonempty; its self-alignment
maximum is `3 * 2 = 6` and its reported score is 1. -/
theorem identical_content_score_witness :
    swRollingMax "ab" "ab" = 3 * (utf8Len "ab" : Int) ∧
      smith_waterman_rolling "ab" "ab" = 1 :=
  identical_content_score "ab" (by decide)

/-- Commuting the up and left arguments leaves a cell value unchanged (both
carry the same gap penalty). -/
theorem swCell_swap (d u l m : Int) : swCell d u l m = swCell d l u m := by
  rw [swCell, swCell, max_comm (u - 2) (l - 2)]

/-- The match score is symmetric in the two strings. -/
theorem mmScore_symm (s1 s2 : String) (i j : Nat) :
    mmScore s1 s2 i j = mmScore s2 s1 j i := by
  rw [mmScore, mmScore]
  by_cases hab : s1.data.get? i = s2.data.get? j
  · rw [if_pos hab, if_pos hab.symm]
  · rw [if_neg hab, if_neg fun hba => hab hba.symm]

/-- The full matrix of `(s1, s2)` is the transpose of the matrix of
`(s2, s1)`. -/
theorem swH_symm (s1 s2 : String) : ∀ i j, swH s1 s2 i j = swH s2 s1 j i := by
  intro i
  induction i with
  | zero => intro j; rw [swH_zero_left, swH_zero_right]
  | succ i ih =>
    intro j
    induction j with
    | zero => rw [swH_zero_right, swH_zero_left]
    | succ j ihj =>
      rw [swH_succ_succ, swH_succ_succ, ih j, ih (j + 1), ihj, mmScore_symm, swCell_swap]

/-- The maximum cell value is symmetric. -/
theorem swMax_symm (s1 s2 : String) : swMax s1 s2 = swMax s2 s1 := by
  apply le_antisymm
  · apply swMax_le _ _ _ (swMax_nonneg s2 s1)
    intro i j hi hj
    rw [swH_symm]
    exact le_swMax s2 s1 j i hj hi
  · apply swMax_le _ _ _ (swMax_nonneg s1 s2)
    intro i j hi hj
    rw [swH_symm]
    exact le_swMax s1 s2 j i hj hi

/-- C9: the normalized local-alignment score is symmetric in its two
arguments — `smith_waterman_rolling(A, B) = smith_waterman_rolling(B, A)`
for all content strings. -/
theorem alignment_symmetry (A B : String) :
    smith_waterman_rolling A B = smith_waterman_rolling B A := by
  rw [smith_waterman_rolling, smith_waterman_rolling, swRollingMax_eq, swRollingMax_eq,
    swMax_symm, max_comm ((utf8Len A : ℚ)) ((utf8Len B : ℚ))]

/-! ## C1 — grouping determinism -/

/-- A find over a list with at most one satisfying element is determined by
membership. -/
theorem find?_eq_some_of_unique {α : Type} (p : α → Bool) :
    ∀ (l : List α) (a : α), a ∈ l → p a = true →
      (∀ x ∈ l, ∀ y ∈ l, p x = true → p y = true → x = y) → l.find? p = some a := by
  intro l
  induction l with
  | nil => intro a ha; cases ha
  | cons x t ih =>
    intro a ha hpa huniq
    by_cases hpx : p x = true
    · have hxa : x = a := huniq x (List.mem_cons_self x t) a ha hpx hpa
      rw [List.find?_cons_of_pos _ hpx, hxa]
    · rw [List.find?_cons_of_neg _ hpx]
      rcases List.mem_cons.1 ha with rfl | ha'
      · exact absurd hpa hpx
      · exact ih a ha' hpa fun x hx y hy =>
          huniq x (List.mem_cons_of_mem _ hx) y (List.mem_cons_of_mem _ hy)

/-- Permuting a list does not change the result of `find?` when at most one
element satisfies the predicate. -/
theorem find?_eq_of_perm_unique {α : Type} (p : α → Bool) (l1 l2 : List α)
    (hp : l1.Perm l2)
    (huniq : ∀ x ∈ l2, ∀ y ∈ l2, p x = true → p y = true → x = y) :
    l1.find? p = l2.find? p := by
  cases hfind : l2.find? p with
  | none =>
    rw [List.find?_eq_none] at hfind ⊢
    intro x hx
    exact hfind x (hp.mem_iff.1 hx)
  | some a =>
    exact find?_eq_some_of_unique p l1 a (hp.mem_iff.2 (List.mem_of_find?_eq_some hfind))
      (List.find?_some hfind)
      fun x hx y hy => huniq x (hp.mem_iff.1 hx) y (hp.mem_iff.1 hy)

/-- One grouping step is independent of the map iteration order as long as
the normalized name matches at most one existing canonical name. -/
theorem groupStep_eq (m : String → String → Option Int)
    (ord1 ord2 : GroupState → GroupState)
    (h1 : ∀ l, (ord1 l).Perm l) (h2 : ∀ l, (ord2 l).Perm l)
    (st : GroupState) (f : String)
    (hnd : (st.map Prod.fst).Nodup)
    (hu : ∀ k1 ∈ st.map Prod.fst, ∀ k2 ∈ st.map Prod.fst,
        matchesKey m (normalize_filename f) k1 = true →
        matchesKey m (normalize_filename f) k2 = true → k1 = k2) :
    groupStep m ord1 st f = groupStep m ord2 st f := by
  have huniq : ∀ x ∈ st, ∀ y ∈ st,
      matchesKey m (normalize_filename f) x.1 = true →
      matchesKey m (normalize_filename f) y.1 = true → x = y := by
    intro x hx y hy hpx hpy
    exact eq_of_fst_eq hnd hx hy
      (hu x.1 (List.mem_map.2 ⟨x, hx, rfl⟩) y.1 (List.mem_map.2 ⟨y, hy, rfl⟩) hpx hpy)
  have hfind : (ord1 st).find? (fun e => matchesKey m (normalize_filename f) e.1) =
      (ord2 st).find? (fun e => matchesKey m (normalize_filename f) e.1) := by
    rw [find?_eq_of_perm_unique _ _ st (h1 st) huniq,
      find?_eq_of_perm_unique _ _ st (h2 st) huniq]
  simp only [groupStep]
  rw [hfind]

/-- Keys of the grouping state after one step: unchanged, or extended by the
normalized name, which was fresh. -/
theorem groupStep_keys (m : String → String → Option Int)
    (ord : GroupState → GroupState) (st : GroupState) (f : String) :
    (groupStep m ord st f).map Prod.fst = st.map Prod.fst ∨
      ((groupStep m ord st f).map Prod.fst = st.map Prod.fst ++ [normalize_filename f] ∧
        normalize_filename f ∉ st.map Prod.fst) := by
  simp only [groupStep]
  cases hf : (ord st).find? (fun e => matchesKey m (normalize_filename f) e.1) with
  | some e =>
    left
    rw [List.map_map]
    apply List.map_congr_left
    intro e2 _
    by_cases h : e2.1 = e.1 <;> simp [h]
  | none =>
    by_cases hany : st.any (fun e2 => e2.1 = normalize_filename f)
    · left
      rw [if_pos hany, List.map_map]
      apply List.map_congr_left
      intro e2 _
      by_cases h : e2.1 = normalize_filename f <;> simp [h]
    · right
      rw [if_neg hany]
      refine ⟨by simp, ?_⟩
      intro hmem
      rcases List.mem_map.1 hmem with ⟨e2, he2, hfst⟩
      exact hany (List.any_eq_true.2 ⟨e2, he2, by simp [hfst]⟩)

/-- A grouping step keeps the canonical names distinct. -/
theorem groupStep_nodup (m : String → String → Option Int)
    (ord : GroupState → GroupState) (st : GroupState) (f : String)
    (hnd : (st.map Prod.fst).Nodup) :
    ((groupStep m ord st f).map Prod.fst).Nodup := by
  rcases groupStep_keys m ord st f with h | ⟨h, hfresh⟩
  · rw [h]; exact hnd
  · rw [h, List.nodup_append]
    exact ⟨hnd, List.nodup_singleton _, fun a ha hb => hfresh ((List.mem_singleton.1 hb) ▸ ha)⟩

/-- C1 counterexample: on the fixed input list `abcd.txt, abce.txt,
abcde.txt` (whose third normalized name fuzzy-matches both existing
canonical names), two runs that differ only in the `HashMap` iteration
order produce different groups: `abcde.txt` joins the `abcd` group in one
run and the `abce` group in the other. -/
theorem grouping_depends_on_map_order :
    group_files skimModel id ["abcd.txt", "abce.txt", "abcde.txt"] ≠
      group_files skimModel List.reverse ["abcd.txt", "abce.txt", "abcde.txt"] := by
  decide

/-- C1 (amended): `group_files` is a pure function of the input list and of
the `HashMap` iteration order; for a fixed iteration order the result is
reproducible, and whenever no normalized name fuzzy-matches two distinct
canonical names the groups do not depend on the iteration order at all.
The hypothesis is essential: `grouping_depends_on_map_order` shows a list
violating it whose groups differ between two iteration orders, so on the
randomly seeded `HashMap` of the source the claimed run-to-run determinism
fails. -/
theorem grouping_deterministic_mod_order (m : String → String → Option Int)
    (ord1 ord2 : GroupState → GroupState) (files : List String)
    (h1 : ∀ l, (ord1 l).Perm l) (h2 : ∀ l, (ord2 l).Perm l)
    (huniq : ∀ f ∈ files, ∀ k1 ∈ files.map normalize_filename,
        ∀ k2 ∈ files.map normalize_filename,
        matchesKey m (normalize_filename f) k1 = true →
        matchesKey m (normalize_filename f) k2 = true → k1 = k2) :
    group_files m ord1 files = group_files m ord2 files := by
  have main : ∀ (rem : List String) (st : GroupState),
      (st.map Prod.fst).Nodup →
      (∀ k ∈ st.map Prod.fst, k ∈ files.map normalize_filename) →
      (∀ f ∈ rem, f ∈ files) →
      rem.foldl (groupStep m ord1) st = rem.foldl (groupStep m ord2) st := by
    intro rem
    induction rem with
    | nil => intro st _ _ _; rfl
    | cons f rest ih =>
      intro st hnd hkeys hrem
      have hf : f ∈ files := hrem f (List.mem_cons_self _ _)
      have hstep : groupStep m ord1 st f = groupStep m ord2 st f :=
        groupStep_eq m ord1 ord2 h1 h2 st f hnd fun k1 hk1 k2 hk2 =>
          huniq f hf k1 (hkeys k1 hk1) k2 (hkeys k2 hk2)
      rw [List.foldl_cons, List.foldl_cons, hstep]
      apply ih
      · exact groupStep_nodup m ord2 st f hnd
      · intro k hk
        rcases groupStep_keys m ord2 st f with h | ⟨h, _⟩
        · rw [h] at hk
          exact hkeys k hk
        · rw [h] at hk
          rcases List.mem_append.1 hk with hk' | hk'
          · exact hkeys k hk'
          · rw [List.mem_singleton.1 hk']
            exact List.mem_map.2 ⟨f, hf, rfl⟩
      · intro g hg
        exact hrem g (List.mem_cons_of_mem _ hg)
  exact main files [] (by simp) (by simp) fun f hf => hf

/-- C1 witness: two report drafts normalize to the single canonical name
`report`, which trivially matches at most one key, so the identity order
and the reversed order produce identical groups. -/
theorem grouping_deterministic_witness :
    group_files skimModel id ["report_v1.docx", "report_v2.docx"] =
      group_files skimModel List.reverse ["report_v1.docx", "report_v2.docx"] :=
  grouping_deterministic_mod_order skimModel id List.reverse
    ["report_v1.docx", "report_v2.docx"]
    (fun l => List.Perm.refl l) (fun l => List.reverse_perm l) (by decide)

/-! ## C7 — filename normalization -/

/-- Reference normalization as the claim words it: after lowercasing and
separator replacement, tokenize on whitespace and strip the last token when
it is a whole version/variant marker; fall back to the lowercased stem when
stripping empties the string. -/
def normalizeSpecTokens (path : String) : String :=
  let stem := fileStem path
  let toks := splitWsAux (lowerSeps stem.data) []
  let stripped :=
    match toks.getLast? with
    | some t => if isMarker t.data then toks.dropLast else toks
    | none => toks
  let out := String.intercalate " " stripped
  if out = "" then ⟨stem.data.map Char.toLower⟩ else out

/-- C7 counterexample: the stem `reportfinal` has no trailing
version/variant token (its only whitespace token is `reportfinal`), so the
claimed reference normalization keeps it whole; the code's regex
`\s*(...)$` needs no separator before the marker and strips the embedded
`final`, producing `report`.  The two definitions differ on this input. -/
theorem normalize_strips_attached_marker :
    normalize_filename "reportfinal.docx" = "report" ∧
      normalizeSpecTokens "reportfinal.docx" = "reportfinal" := by
  decide

/-- The recursive leftmost-match scan equals a global least-offset search. -/
theorem rsFind_eq_find? :
    ∀ l : List Char,
      rsFind l = (List.range (l.length + 1)).find? fun p => suffixMatch (l.drop p) := by
  intro l
  induction l with
  | nil => decide
  | cons c rest ih =>
    rw [rsFind, List.range_succ_eq_map]
    by_cases hs : suffixMatch (c :: rest) = true
    · rw [if_pos hs, List.find?_cons_of_pos _ (by simpa using hs)]
    · rw [if_neg hs, List.find?_cons_of_neg _ (by simpa using hs)]
      rw [List.find?_map, ih]
      rfl

/-- Amended reference normalization: identical pipeline, but the strip step
removes the suffix starting at the least offset at which optional
whitespace followed by a marker reaches the end of the string — the marker
need not be a whole whitespace token. -/
def normalizeAmendedRef (path : String) : String :=
  let stem := fileStem path
  let normalized := lowerSeps stem.data
  let stripped :=
    match (List.range (normalized.length + 1)).find? fun p => suffixMatch (normalized.drop p) with
    | none => normalized
    | some p => normalized.take p
  let cleaned := trimWs stripped
  if cleaned = [] then ⟨stem.data.map Char.toLower⟩ else ⟨cleaned⟩

/-- C7 (amended): `normalize_filename` lowercases the stem, replaces `_`
and `-` by spaces and strips one trailing version/variant marker
(`v<digits>`, `copy`, `backup`, `final`, `draft` or a digit run) preceded by
optional whitespace — at the leftmost offset whose suffix is exactly such a
match, with no token boundary required — falling back to the lowercased
stem when stripping empties the string; in particular the three report
drafts normalize to `report` and land in one FileGroup with canonical name
`report`. -/
theorem normalize_filename_spec :
    (∀ path : String, normalize_filename path = normalizeAmendedRef path) ∧
      normalize_filename "report_v1.docx" = "report" ∧
      normalize_filename "report_v2.docx" = "report" ∧
      normalize_filename "report_final.docx" = "report" ∧
      group_files skimModel id ["report_v1.docx", "report_v2.docx", "report_final.docx"] =
        [("report", ["report_v1.docx", "report_v2.docx", "report_final.docx"])] := by
  refine ⟨?_, by decide, by decide, by decide, by decide⟩
  intro path
  rw [normalize_filename, normalizeAmendedRef, regexReplaceFirst, rsFind_eq_find?]
